import Mathlib

/-!
Verification of fahedouch/go-logrotate (logrotate.go) against its
natural-language specification.

The Go code is shallowly embedded: file names are lists of characters,
machine integers (`int`, `int64`) are unbounded `Int` (no claim here is
about overflow), times are `Int` nanoseconds, and the filesystem is an
explicit list of directory entries.  `time.Parse` (standard library,
outside this repository) is an abstract parameter `parse` of the
configuration.
-/

namespace Logrotate

/-! ### Constants (logrotate.go lines 21-24, 108-119) -/

/-- `compressSuffix = ".gz"` -/
def compressSuffix : List Char := ['.', 'g', 'z']

/-- `defaultMaxSize = 100` -/
def defaultMaxSize : Int := 100

/-- `megabyte = 1024 * 1024` -/
def megabyte : Int := 1024 * 1024

/-! ### The write path (logrotate.go `Logger`, `max`, `Write`)

Only the fields that the write path reads are modelled; `file *os.File`
becomes the boolean `fileOpen`, `size int64` becomes an `Int`. -/

structure Logger where
  maxBytes : Int
  size : Int
  fileOpen : Bool
deriving DecidableEq

/-- `func (l *Logger) max(writeLen int64) int64` (logrotate.go 529-537). -/
def Logger.max (l : Logger) (writeLen : Int) : Int :=
  if l.maxBytes ≠ 0 then
    if l.maxBytes = -1 then writeLen + l.size + 1
    else l.maxBytes
  else defaultMaxSize * megabyte

/-- Result of one `Write` call: the returned byte count `n`, whether the
length-exceeded error was returned, whether `rotate` ran, whether
`openNew` ran (creating/truncating the log file), and the logger state
after the call. -/
structure WriteRes where
  n : Int
  lengthErr : Bool
  rotated : Bool
  createdFile : Bool
  logger : Logger
deriving DecidableEq

/-- `openNew` (logrotate.go 197-243): after it, the file is open and the
tracked size is zero. -/
def Logger.openNewM (l : Logger) : Logger :=
  { l with fileOpen := true, size := 0 }

/-- `rotate` (logrotate.go 184-193): close, then `openNew` (the mill side
effects are modelled separately in `millRunOnce`). -/
def Logger.rotateM (l : Logger) : Logger :=
  l.openNewM

/-- `openExistingOrNew` (logrotate.go 281-306).  `statSize` is the result
of `osStat` on the current log file: `none` when the file does not exist.
Returns the new logger state, whether `rotate` ran, and whether `openNew`
ran. -/
def Logger.openExistingOrNewM (l : Logger) (writeLen : Int) (statSize : Option Int) :
    Logger × Bool × Bool :=
  match statSize with
  | none => (l.openNewM, false, true)
  | some sz =>
    if sz + writeLen ≥ l.max writeLen then (l.rotateM, true, true)
    else ({ l with fileOpen := true, size := sz }, false, false)

/-- `func (l *Logger) Write(p []byte) (n int, err error)`
(logrotate.go 124-151).  `len` is `len(p)`; the underlying `file.Write`
is modelled as writing all `len` bytes. -/
def Logger.write (l : Logger) (len : Nat) (statSize : Option Int) : WriteRes :=
  let writeLen : Int := len
  if writeLen > l.max writeLen then
    ⟨0, true, false, false, l⟩
  else
    let res := if l.fileOpen then (l, false, false)
               else l.openExistingOrNewM writeLen statSize
    let l1 := res.1
    if l1.size + writeLen > l1.max writeLen then
      let l2 := l1.rotateM
      ⟨writeLen, false, true, true, { l2 with size := l2.size + writeLen }⟩
    else
      ⟨writeLen, false, res.2.1, res.2.2, { l1 with size := l1.size + writeLen }⟩

/-! ### Theorems: the write path -/

/-- **C1**: if the length of the write alone exceeds the effective
maximum, `Write` returns the length-exceeded error with `n = 0`,
performs no rotation, creates no file, and leaves the logger state
(tracked size and open-handle flag) unchanged. -/
theorem C1_oversized_write_rejected (l : Logger) (len : Nat) (statSize : Option Int)
    (h : (len : Int) > l.max len) :
    l.write len statSize = ⟨0, true, false, false, l⟩ := by
  simp [Logger.write, h]

theorem C1_oversized_write_rejected_witness :
    ((6 : Int) > (Logger.mk 5 0 false).max 6) ∧
      (Logger.mk 5 0 false).write 6 none = ⟨0, true, false, false, Logger.mk 5 0 false⟩ :=
  ⟨by decide, C1_oversized_write_rejected (Logger.mk 5 0 false) 6 none (by decide)⟩

/-- **C4**: with the file open and the write not rejected by the length
check, a rotation precedes the write if and only if the tracked size
plus the write length strictly exceeds the effective maximum; in
particular equality does not rotate. -/
theorem C4_rotate_iff_strict_overflow (l : Logger) (len : Nat) (statSize : Option Int)
    (hopen : l.fileOpen = true) (hlen : ¬ ((len : Int) > l.max len)) :
    (l.write len statSize).rotated = true ↔ l.size + (len : Int) > l.max len := by
  simp only [Logger.write, hlen, if_false, hopen, if_true]
  by_cases h : l.size + (len : Int) > l.max len
  · simp [h]
  · simp [h]

theorem C4_rotate_iff_strict_overflow_witness :
    ((Logger.mk 5 3 true).fileOpen = true ∧ ¬ ((2 : Int) > (Logger.mk 5 3 true).max 2)) ∧
      ¬ (((Logger.mk 5 3 true).write 2 none).rotated = true) :=
  ⟨⟨by decide, by decide⟩, by
    have h := C4_rotate_iff_strict_overflow (Logger.mk 5 3 true) 2 none (by decide) (by decide)
    intro hr
    exact absurd (h.mp hr) (by decide)⟩

/-- **C8**: the effective maximum equals the configured `MaxBytes` when
it is positive; `size + writeLen + 1` when `MaxBytes` is the `-1`
sentinel; and 100 MiB when `MaxBytes` is zero. -/
theorem C8_effective_max (l : Logger) (w : Int) :
    (0 < l.maxBytes → l.max w = l.maxBytes) ∧
      (l.maxBytes = -1 → l.max w = l.size + w + 1) ∧
      (l.maxBytes = 0 → l.max w = 100 * 1024 * 1024) := by
  refine ⟨fun h => ?_, fun h => ?_, fun h => ?_⟩
  · simp only [Logger.max]
    rw [if_pos (by omega), if_neg (by omega)]
  · simp only [Logger.max]
    rw [if_pos (by omega), if_pos h]
    omega
  · simp [Logger.max, h, defaultMaxSize, megabyte]

theorem C8_effective_max_witness :
    (Logger.mk 7 2 false).max 3 = 7 ∧
      (Logger.mk (-1) 2 false).max 3 = 6 ∧
      (Logger.mk 0 2 false).max 3 = 100 * 1024 * 1024 :=
  ⟨(C8_effective_max (Logger.mk 7 2 false) 3).1 (by decide),
   (C8_effective_max (Logger.mk (-1) 2 false) 3).2.1 (by decide),
   (C8_effective_max (Logger.mk 0 2 false) 3).2.2 (by decide)⟩

/-- **C10**: when `MaxBytes` is strictly below `-1`, the effective
maximum is that negative value itself, so every write — a zero-length
write included — is rejected with the length-exceeded error, `n = 0`,
no rotation, no file created, state unchanged. -/
theorem C10_negative_max_rejects_all (l : Logger) (len : Nat) (statSize : Option Int)
    (h : l.maxBytes < -1) :
    l.max len = l.maxBytes ∧
      l.write len statSize = ⟨0, true, false, false, l⟩ := by
  have hmax : l.max len = l.maxBytes := by
    simp only [Logger.max]
    rw [if_pos (by omega), if_neg (by omega)]
  refine ⟨hmax, ?_⟩
  have : ((len : Int)) > l.max len := by rw [hmax]; omega
  simp [Logger.write, this]

theorem C10_negative_max_rejects_all_witness :
    (Logger.mk (-2) 0 false).max 0 = -2 ∧
      (Logger.mk (-2) 0 false).write 0 none = ⟨0, true, false, false, Logger.mk (-2) 0 false⟩ :=
  C10_negative_max_rejects_all (Logger.mk (-2) 0 false) 0 none (by decide)

/-! ### File names (logrotate.go `prefixAndExt`, `orderFromName`,
`timeFromName`, and the standard-library helpers they use)

File names are lists of characters.  The names produced by `ReadDir`
contain no path separator, so `filepath.Ext` reduces to "from the last
dot". -/

/-- `filepath.Ext` on a bare file name: the suffix starting at the last
dot, including the dot; empty when there is no dot. -/
def takeExt (s : List Char) : List Char :=
  if '.' ∈ s then '.' :: (s.reverse.takeWhile (fun c => c ≠ '.')).reverse
  else []

/-- `strings.TrimSuffix(s, suf)`. -/
def trimSuffix (s suf : List Char) : List Char :=
  if suf.isSuffixOf s then s.take (s.length - suf.length) else s

/-- `strings.TrimPrefix(s, ".")`. -/
def trimDot (s : List Char) : List Char :=
  match s with
  | '.' :: rest => rest
  | _ => s

/-- Decimal value of a digit character. -/
def digitVal (c : Char) : Nat := c.toNat - '0'.toNat

/-- Parse a non-empty all-digit string (the unsigned core of
`strconv.Atoi`; the int64 range check is dropped, integers being
unbounded in the model). -/
def digitsToNat (s : List Char) : Option Nat :=
  if s ≠ [] ∧ s.all Char.isDigit then
    some (s.foldl (fun acc c => acc * 10 + digitVal c) 0)
  else none

/-- `strconv.Atoi`: optional sign, then digits; empty input is an
error. -/
def atoi : List Char → Option Int
  | [] => none
  | c :: rest =>
    if c = '-' then (digitsToNat rest).map (fun n => -(n : Int))
    else if c = '+' then (digitsToNat rest).map (fun n => (n : Int))
    else (digitsToNat (c :: rest)).map (fun n => (n : Int))

/-- Decimal digits of a natural number, most significant first
(fuel-indexed so that it reduces structurally; `natDigits` supplies
enough fuel). -/
def natDigitsAux : Nat → Nat → List Char
  | 0, _ => []
  | fuel + 1, n =>
    if n < 10 then [Nat.digitChar n]
    else natDigitsAux fuel (n / 10) ++ [Nat.digitChar (n % 10)]

/-- Decimal rendering of a natural number (`fmt.Sprintf("%d", n)` for
`n ≥ 0`). -/
def natDigits (n : Nat) : List Char := natDigitsAux (n + 1) n

/-- `fmt.Sprintf("%d", m)` for an `Int`. -/
def intDigits (m : Int) : List Char :=
  if m < 0 then '-' :: natDigits m.natAbs else natDigits m.toNat

/-- `func (l *Logger) prefixAndExt() (string, string)`
(logrotate.go 546-560), applied to the base of the log file name.
`tsMode` is `FilenameTimeFormat != ""`. -/
def prefixAndExt (base : List Char) (tsMode : Bool) : List Char × List Char :=
  if tsMode then
    let ext := takeExt base
    (base.take (base.length - ext.length) ++ ['-'], ext)
  else (base, [])

/-- `func (l *Logger) orderFromName(filename, prefix, ext string) (int, error)`
(logrotate.go 495-517); `none` is the error case. -/
def orderFromName (filename pre ext : List Char) : Option Int :=
  if pre.isPrefixOf filename then
    if ext.isSuffixOf filename then
      let strOrder :=
        if ext ≠ [] then (filename.take (filename.length - ext.length)).drop pre.length
        else takeExt filename
      atoi (trimDot strOrder)
    else none
  else none

/-- `func (l *Logger) timeFromName(filename, prefix, ext string)`
(logrotate.go 483-492).  `parse` stands for
`time.Parse(l.FilenameTimeFormat, ·)` (standard library). -/
def timeFromName (parse : List Char → Option Int) (filename pre ext : List Char) :
    Option Int :=
  if pre.isPrefixOf filename then
    if ext.isSuffixOf filename then parse ((filename.take (filename.length - ext.length)).drop pre.length)
    else none
  else none

/-! ### Directory scanning (logrotate.go `oldLogFiles`) -/

/-- A directory entry as seen by `os.ReadDir` plus the modification time
`times.Stat`/`getFileTimeInfo` would report for it. -/
structure DirEntry where
  name : List Char
  isDir : Bool
  modTime : Int
deriving DecidableEq

/-- The configuration the mill path reads: the base of `l.filename()`,
whether `FilenameTimeFormat` is non-empty, the abstract
`time.Parse(l.FilenameTimeFormat, ·)`, and the retention settings. -/
structure MillCfg where
  base : List Char
  tsMode : Bool
  parse : List Char → Option Int
  maxBackups : Int
  maxAge : Int
  compress : Bool

/-- `logInfo` (logrotate.go 619-622): the ordering timestamp and name. -/
structure LogInfo where
  timestamp : Int
  name : List Char
deriving DecidableEq

/-- Classification of one directory entry by the `switch` in
`oldLogFiles` (logrotate.go 433-468): `some t` when the entry is a
backup of this log with ordering timestamp `t`, `none` otherwise.
Subdirectories are skipped, timestamp mode tries the name with the
plain extension then with the compressed suffix appended, ordinal mode
tries only `orderFromName` with the plain (empty) extension — the
compressed-suffix call is commented out in the source — and stamps the
file with its modification time (`getFileTimeInfo`). -/
def classify (cfg : MillCfg) (e : DirEntry) : Option Int :=
  if e.isDir then none
  else
    let pe := prefixAndExt cfg.base cfg.tsMode
    if cfg.tsMode then
      match timeFromName cfg.parse e.name pe.1 pe.2 with
      | some t => some t
      | none =>
        match timeFromName cfg.parse e.name pe.1 (pe.2 ++ compressSuffix) with
        | some t => some t
        | none => none
    else
      match orderFromName e.name pe.1 pe.2 with
      | some _ => some e.modTime
      | none => none

/-- The ordering used by `byBirthTime` (logrotate.go 625-637): newest
first. -/
def byBirth (a b : LogInfo) : Prop := b.timestamp ≤ a.timestamp

instance : DecidableRel byBirth :=
  fun a b => inferInstanceAs (Decidable (b.timestamp ≤ a.timestamp))

instance : IsTotal LogInfo byBirth := ⟨fun a b => le_total b.timestamp a.timestamp⟩

instance : IsTrans LogInfo byBirth := ⟨fun _ _ _ h1 h2 => le_trans h2 h1⟩

/-- `func (l *Logger) oldLogFiles() ([]logInfo, error)`
(logrotate.go 424-478): the classified backups sorted newest first,
together with the names appended to `/tmp/solution2.log` (one per
non-directory entry that fails classification). -/
def oldLogFiles (cfg : MillCfg) (entries : List DirEntry) :
    List LogInfo × List (List Char) :=
  (List.insertionSort byBirth
      (entries.filterMap (fun e => (classify cfg e).map (fun t => ⟨t, e.name⟩))),
    (entries.filter (fun e => !e.isDir && (classify cfg e).isNone)).map (·.name))

/-! ### Backup naming at rotation (logrotate.go `backupName`) -/

/-- One step of the `maxBackupOrder` scan of `backupName`
(logrotate.go 263-271): skip compressed names, keep the running
maximum of the orders that parse. -/
def orderStep (pre ext : List Char) (m : Int) (f : LogInfo) : Int :=
  if !(compressSuffix.isSuffixOf f.name) then
    match orderFromName f.name pre ext with
    | some order => if m < order then order else m
    | none => m
  else m

/-- The `maxBackupOrder` scan of `backupName` (logrotate.go 262-271):
the largest order found among the non-`.gz` classified backups, starting
from `0`. -/
def maxBackupOrder (cfg : MillCfg) (entries : List DirEntry) : Int :=
  let pe := prefixAndExt cfg.base cfg.tsMode
  ((oldLogFiles cfg entries).1).foldl (orderStep pe.1 pe.2) 0

/-- `func (l *Logger) backupName(...)` in ordinal mode
(`FilenameTimeFormat == ""`, logrotate.go 257-273):
`fmt.Sprintf("%s%s.%d", prefix, ext, maxBackupOrder+1)` joined to the
directory; the directory part is elided. -/
def backupNameOrdinal (cfg : MillCfg) (entries : List DirEntry) : List Char :=
  let pe := prefixAndExt cfg.base cfg.tsMode
  pe.1 ++ pe.2 ++ '.' :: intDigits (maxBackupOrder cfg entries + 1)

/-! ### The retention pass (logrotate.go `millRunOnce`) -/

/-- The count-enforcement loop of `millRunOnce` (logrotate.go 343-357):
walks the (newest-first) backups, registering each one's `.gz`-trimmed
name in `preserved` and removing it when the number of distinct
registered names exceeds `maxB`.  Returns `(remaining, remove)`. -/
def enforceCount (maxB : Int) (preserved : List (List Char)) :
    List LogInfo → List LogInfo × List LogInfo
  | [] => ([], [])
  | f :: fs =>
    let fn := trimSuffix f.name compressSuffix
    let preserved' := if fn ∈ preserved then preserved else preserved ++ [fn]
    let rest := enforceCount maxB preserved' fs
    if maxB < (preserved'.length : Int) then (rest.1, f :: rest.2)
    else (f :: rest.1, rest.2)

/-- Nanoseconds in `time.Hour`. -/
def nanosPerHour : Int := 3600 * 1000000000

/-- Result of one `millRunOnce` call (logrotate.go 321-398):
`classified` is what `oldLogFiles` returned, `surviving` the backups
left after count and age enforcement, `removed` the files handed to
`os.Remove`, `toCompress` the names handed to `compressLogFile`, and
`sol3`/`sol2`/`sol` the names appended to `/tmp/solution3.log`,
`/tmp/solution2.log` and `/tmp/solution.log`. -/
structure MillResult where
  shortCircuit : Bool
  classified : List LogInfo
  surviving : List LogInfo
  removed : List LogInfo
  toCompress : List (List Char)
  sol3 : List (List Char)
  sol2 : List (List Char)
  sol : List (List Char)

/-- `func (l *Logger) millRunOnce() error` (logrotate.go 321-398). -/
def millRunOnce (cfg : MillCfg) (entries : List DirEntry) (now : Int) : MillResult :=
  if cfg.maxBackups = 0 ∧ cfg.maxAge = 0 ∧ cfg.compress = false then
    ⟨true, [], [], [], [], [], [], []⟩
  else
    let scan := oldLogFiles cfg entries
    let files0 := scan.1
    let sol3 := files0.map (·.name)
    let step1 :=
      if 0 < cfg.maxBackups ∧ cfg.maxBackups < (files0.length : Int) then
        let ec := enforceCount cfg.maxBackups [] files0
        (ec.1, ec.2, files0.map (·.name))
      else (files0, [], [])
    let step2 :=
      if 0 < cfg.maxAge then
        let cutoff := now - 24 * nanosPerHour * cfg.maxAge
        (step1.1.filter (fun f => !(decide (f.timestamp < cutoff))),
         step1.1.filter (fun f => decide (f.timestamp < cutoff)))
      else (step1.1, [])
    let toCompress :=
      if cfg.compress then
        (step2.1.filter (fun f => !(compressSuffix.isSuffixOf f.name))).map (·.name)
      else []
    ⟨false, files0, step2.1, step1.2.1 ++ step2.2, toCompress, sol3, scan.2, step1.2.2⟩

/-! ### Compression (logrotate.go `compressLogFile`)

Each fallible operation of `compressLogFile` is given an outcome bit;
the filesystem state tracked is whether the uncompressed source and the
compressed destination exist. -/

structure CompressEnv where
  openSrcOk : Bool
  statOk : Bool
  chownOk : Bool
  openDstOk : Bool
  copyOk : Bool
  gzCloseOk : Bool
  dstCloseOk : Bool
  srcCloseOk : Bool
  removeSrcOk : Bool
deriving DecidableEq

structure FileState where
  srcExists : Bool
  dstExists : Bool
deriving DecidableEq

/-- `func compressLogFile(src, dst string) (err error)`
(logrotate.go 564-615).  Returns whether the call succeeded and the
final file state.  The deferred cleanup installed after the destination
is opened removes the destination whenever `err` is non-nil on return;
`os.Remove(src)` runs only after the copy and all closes succeeded. -/
def compressLogFile (e : CompressEnv) (st : FileState) : Bool × FileState :=
  if !e.openSrcOk then (false, st)
  else if !e.statOk then (false, st)
  else if !e.chownOk then (false, st)
  else if !e.openDstOk then (false, st)
  else
    -- `os.OpenFile(dst, O_CREATE|O_TRUNC|O_WRONLY, ...)` succeeded:
    -- from here the deferred `os.Remove(dst)` covers every error return.
    if !e.copyOk then (false, { st with dstExists := false })
    else if !e.gzCloseOk then (false, { st with dstExists := false })
    else if !e.dstCloseOk then (false, { st with dstExists := false })
    else if !e.srcCloseOk then (false, { st with dstExists := false })
    else if !e.removeSrcOk then (false, { st with dstExists := false })
    else (true, { srcExists := false, dstExists := true })

/-! ### Decimal-digit lemmas -/

lemma digitChar_isDigit : ∀ n, n < 10 → (Nat.digitChar n).isDigit = true := by decide

lemma digitVal_digitChar : ∀ n, n < 10 → digitVal (Nat.digitChar n) = n := by decide

lemma natDigitsAux_spec :
    ∀ fuel n, n < fuel →
      natDigitsAux fuel n ≠ [] ∧ (natDigitsAux fuel n).all Char.isDigit = true ∧
        (natDigitsAux fuel n).foldl (fun acc c => acc * 10 + digitVal c) 0 = n := by
  intro fuel
  induction fuel with
  | zero => intro n h; omega
  | succ fuel ih =>
    intro n h
    by_cases h10 : n < 10
    · refine ⟨by simp [natDigitsAux, h10], ?_, ?_⟩
      · simp [natDigitsAux, h10, digitChar_isDigit n h10]
      · simp [natDigitsAux, h10, digitVal_digitChar n h10]
    · have hrec : n / 10 < fuel := by omega
      obtain ⟨ih1, ih2, ih3⟩ := ih (n / 10) hrec
      have hm : n % 10 < 10 := by omega
      refine ⟨by simp [natDigitsAux, h10], ?_, ?_⟩
      · simp [natDigitsAux, h10, List.all_append, ih2, digitChar_isDigit _ hm]
      · simp only [natDigitsAux, h10, if_false, List.foldl_append, ih3]
        rw [List.foldl_cons, List.foldl_nil, digitVal_digitChar _ hm]
        omega

lemma natDigits_ne_nil (n : Nat) : natDigits n ≠ [] :=
  (natDigitsAux_spec (n + 1) n (by omega)).1

lemma natDigits_all_isDigit (n : Nat) : (natDigits n).all Char.isDigit = true :=
  (natDigitsAux_spec (n + 1) n (by omega)).2.1

lemma digitsToNat_natDigits (n : Nat) : digitsToNat (natDigits n) = some n := by
  unfold digitsToNat
  rw [if_pos ⟨natDigits_ne_nil n, natDigits_all_isDigit n⟩]
  exact congrArg some (natDigitsAux_spec (n + 1) n (by omega)).2.2

lemma isDigit_ne_dot {c : Char} (h : c.isDigit = true) : c ≠ '.' := by
  intro he; rw [he] at h; exact absurd h (by decide)

lemma isDigit_ne_dash {c : Char} (h : c.isDigit = true) : c ≠ '-' := by
  intro he; rw [he] at h; exact absurd h (by decide)

lemma isDigit_ne_plus {c : Char} (h : c.isDigit = true) : c ≠ '+' := by
  intro he; rw [he] at h; exact absurd h (by decide)

lemma atoi_of_digits (s : List Char) (h1 : s ≠ []) (h2 : s.all Char.isDigit = true) :
    atoi s = (digitsToNat s).map (fun n => (n : Int)) := by
  obtain ⟨c, cs, rfl⟩ := List.exists_cons_of_ne_nil h1
  have hc : c.isDigit = true := by
    simp only [List.all_cons, Bool.and_eq_true] at h2
    exact h2.1
  simp only [atoi, if_neg (isDigit_ne_dash hc), if_neg (isDigit_ne_plus hc)]

lemma atoi_natDigits (n : Nat) : atoi (natDigits n) = some (n : Int) := by
  rw [atoi_of_digits _ (natDigits_ne_nil n) (natDigits_all_isDigit n),
    digitsToNat_natDigits]
  rfl

/-! ### `takeExt` and `orderFromName` lemmas -/

lemma takeExt_append (xs ds : List Char) (h : ∀ c ∈ ds, c ≠ '.') :
    takeExt (xs ++ '.' :: ds) = '.' :: ds := by
  unfold takeExt
  rw [if_pos (by simp)]
  congr 1
  have hds : ds.reverse.takeWhile (fun c => decide (c ≠ '.')) = ds.reverse := by
    rw [List.takeWhile_eq_self_iff]
    intro c hc
    simpa using h c (List.mem_reverse.mp hc)
  rw [List.reverse_append, List.reverse_cons, List.append_assoc, List.singleton_append,
    List.takeWhile_append, hds]
  simp

lemma orderFromName_append_digits (xs ds : List Char) (h1 : ds ≠ [])
    (h2 : ds.all Char.isDigit = true) :
    orderFromName (xs ++ '.' :: ds) xs [] = (digitsToNat ds).map (fun n => (n : Int)) := by
  unfold orderFromName
  rw [if_pos (List.isPrefixOf_iff_prefix.mpr ⟨'.' :: ds, rfl⟩),
    if_pos (List.isSuffixOf_iff_suffix.mpr List.nil_suffix)]
  simp only [ne_eq, not_true_eq_false, if_false,
    takeExt_append xs ds (fun c hc => isDigit_ne_dot (by
      rw [List.all_eq_true] at h2; exact h2 c hc))]
  rw [show trimDot ('.' :: ds) = ds from rfl]
  exact atoi_of_digits ds h1 h2

lemma orderFromName_natDigits (xs : List Char) (n : Nat) :
    orderFromName (xs ++ '.' :: natDigits n) xs [] = some (n : Int) := by
  rw [orderFromName_append_digits xs _ (natDigits_ne_nil n) (natDigits_all_isDigit n),
    digitsToNat_natDigits]
  rfl

lemma orderFromName_gz_none (nm xs : List Char)
    (h : compressSuffix.isSuffixOf nm = true) :
    orderFromName nm xs [] = none := by
  unfold orderFromName
  by_cases hp : xs.isPrefixOf nm
  · obtain ⟨ys, rfl⟩ := List.isSuffixOf_iff_suffix.mp h
    rw [if_pos hp, if_pos (List.isSuffixOf_iff_suffix.mpr List.nil_suffix)]
    simp only [ne_eq, not_true_eq_false, if_false]
    rw [show (compressSuffix : List Char) = '.' :: ['g', 'z'] from rfl] at *
    rw [takeExt_append ys ['g', 'z'] (by decide)]
    decide
  · rw [if_neg hp]

/-! ### Theorems: compression -/

/-- **C6**: starting a compression run with the source present and no
compressed output yet, any failure leaves the source intact and no
compressed output behind, and the source is removed only when the copy
and all the closes of the compressed file succeeded (the compressed
file then being present in full). -/
theorem C6_compress_failure_atomic (e : CompressEnv) (st : FileState)
    (hs : st.srcExists = true) (hd : st.dstExists = false) :
    ((compressLogFile e st).1 = false →
        (compressLogFile e st).2.srcExists = true ∧
          (compressLogFile e st).2.dstExists = false) ∧
      ((compressLogFile e st).2.srcExists = false →
        e.copyOk = true ∧ e.gzCloseOk = true ∧ e.dstCloseOk = true ∧
          (compressLogFile e st).2.dstExists = true) := by
  obtain ⟨a, b, c, d, e1, f, g, h, i⟩ := e
  obtain ⟨s1, s2⟩ := st
  simp only at hs hd
  subst hs; subst hd
  cases a <;> cases b <;> cases c <;> cases d <;> cases e1 <;> cases f <;> cases g <;>
    cases h <;> cases i <;> decide

theorem C6_compress_failure_atomic_witness :
    (compressLogFile ⟨true, true, true, true, false, true, true, true, true⟩
          ⟨true, false⟩).2.srcExists = true ∧
      (compressLogFile ⟨true, true, true, true, false, true, true, true, true⟩
          ⟨true, false⟩).2.dstExists = false :=
  (C6_compress_failure_atomic ⟨true, true, true, true, false, true, true, true, true⟩
    ⟨true, false⟩ rfl rfl).1 rfl

/-! ### Theorems: the retention pass, age law -/

/-- **C5**: once a retention pass completes under `MaxAge > 0`, no
surviving classified backup has an ordering timestamp strictly earlier
than now minus `MaxAge` days, whatever the count cap is. -/
theorem C5_age_law (cfg : MillCfg) (entries : List DirEntry) (now : Int)
    (h : 0 < cfg.maxAge) :
    ∀ f ∈ (millRunOnce cfg entries now).surviving,
      ¬ (f.timestamp < now - 24 * nanosPerHour * cfg.maxAge) := by
  intro f hf
  unfold millRunOnce at hf
  rw [if_neg (fun hc => absurd hc.2.1 (by omega))] at hf
  dsimp only at hf
  rw [if_pos h] at hf
  dsimp only at hf
  rcases List.mem_filter.mp hf with ⟨_, hpred⟩
  intro hlt
  simp [hlt] at hpred

/-- A concrete ordinal-mode configuration: log file `foobar.log`,
`FilenameTimeFormat` empty. -/
def cfgOrdEx : MillCfg :=
  ⟨"foobar.log".toList, false, fun _ => none, 1, 1, true⟩

theorem C5_age_law_witness :
    ¬ ((⟨100, "foobar.log.1".toList⟩ : LogInfo).timestamp <
        0 - 24 * nanosPerHour * cfgOrdEx.maxAge) :=
  C5_age_law cfgOrdEx [⟨"foobar.log.1".toList, false, 100⟩] 0 (by decide)
    ⟨100, "foobar.log.1".toList⟩ (by decide)

/-! ### Theorems: the `/tmp/solution*.log` side channels -/

/-- **C9**: a retention pass that gets past the short-circuit appends to
`/tmp/solution3.log` the name of every classified backup, appends to
`/tmp/solution2.log` the name of every non-directory entry that fails
classification, and, when count enforcement runs, appends every
classified backup's name to `/tmp/solution.log`. -/
theorem C9_solution_side_channels (cfg : MillCfg) (entries : List DirEntry) (now : Int)
    (h : ¬ (cfg.maxBackups = 0 ∧ cfg.maxAge = 0 ∧ cfg.compress = false)) :
    (millRunOnce cfg entries now).sol3 = (oldLogFiles cfg entries).1.map (·.name) ∧
      (millRunOnce cfg entries now).sol2 = (oldLogFiles cfg entries).2 ∧
      ((0 < cfg.maxBackups ∧
          cfg.maxBackups < (((oldLogFiles cfg entries).1.length : Int))) →
        (millRunOnce cfg entries now).sol =
          (oldLogFiles cfg entries).1.map (·.name)) := by
  unfold millRunOnce
  rw [if_neg h]
  refine ⟨rfl, rfl, fun hc => ?_⟩
  dsimp only
  rw [if_pos hc]

/-- Two backups of `foobar.log`, `MaxBackups = 1`: count enforcement
runs. -/
def entriesEx : List DirEntry :=
  [⟨"foobar.log.1".toList, false, 100⟩, ⟨"foobar.log.2".toList, false, 200⟩]

theorem C9_solution_side_channels_witness :
    (millRunOnce cfgOrdEx entriesEx 0).sol3 =
        (oldLogFiles cfgOrdEx entriesEx).1.map (·.name) ∧
      (millRunOnce cfgOrdEx entriesEx 0).sol2 = (oldLogFiles cfgOrdEx entriesEx).2 ∧
      (millRunOnce cfgOrdEx entriesEx 0).sol =
        (oldLogFiles cfgOrdEx entriesEx).1.map (·.name) :=
  ⟨(C9_solution_side_channels cfgOrdEx entriesEx 0 (by decide)).1,
   (C9_solution_side_channels cfgOrdEx entriesEx 0 (by decide)).2.1,
   (C9_solution_side_channels cfgOrdEx entriesEx 0 (by decide)).2.2 (by decide)⟩

/-! ### Theorems: classification of directory entries -/

/-- **C3, counterexample**: two parts of the claim fail on the code for
the log file `foobar.log` (ordinal mode).  First, the uncompressed
backup `foobar.log.1` is classified but the compressed backup
`foobar.log.1.gz` — of the form `<name><ext>.<N>.gz` the claim says is
classified — is not (the compressed-suffix call in `oldLogFiles` is
commented out in the source).  Second, `foobar.logX.7` is not of either
form `<name><ext>.<N>` or `<name><ext>.<N>.gz` for `<name><ext> =
foobar.log`, yet it is classified (`orderFromName` checks only a string
prefix plus a trailing integer), so the claim's "every other entry is
ignored" clause fails as well. -/
theorem C3_counterexample :
    classify cfgOrdEx ⟨"foobar.log.1".toList, false, 11⟩ = some 11 ∧
      classify cfgOrdEx ⟨"foobar.log.1.gz".toList, false, 11⟩ = none ∧
      classify cfgOrdEx ⟨"foobar.logX.7".toList, false, 9⟩ = some 9 := by decide

/-- Completeness of `timeFromName`: when the abstract `time.Parse`
rejects the empty string (as Go's does for the non-empty formats of
timestamp mode), a successful classification decomposes the file name
as `<prefix><timestamp><ext>`. -/
lemma timeFromName_decomp (parse : List Char → Option Int) (nm pre ext : List Char)
    (hparse : parse [] = none) (t : Int)
    (h : timeFromName parse nm pre ext = some t) :
    ∃ ts, nm = pre ++ ts ++ ext ∧ parse ts = some t := by
  unfold timeFromName at h
  by_cases hp : pre.isPrefixOf nm
  · rw [if_pos hp] at h
    by_cases hs : ext.isSuffixOf nm
    · rw [if_pos hs] at h
      by_cases hlen : pre.length + ext.length ≤ nm.length
      · obtain ⟨u, hu⟩ := List.isSuffixOf_iff_suffix.mp hs
        obtain ⟨r, hr⟩ := List.isPrefixOf_iff_prefix.mp hp
        have htake : nm.take (nm.length - ext.length) = u := by
          rw [← hu]
          have hul : (u ++ ext).length - ext.length = u.length := by
            simp
          rw [hul, List.take_left]
        have hsplit : pre ++ r = u ++ ext := by rw [hr, hu]
        rcases List.append_eq_append_iff.mp hsplit with ⟨w, hw1, _⟩ | ⟨w, hw1, _⟩
        · refine ⟨w, by rw [← hu, hw1], ?_⟩
          rw [htake, hw1, List.drop_left] at h
          exact h
        · have hw0 : w = [] := by
            have h1 : pre.length = u.length + w.length := by rw [hw1]; simp
            have h2 : nm.length = u.length + ext.length := by rw [← hu]; simp
            have : w.length = 0 := by omega
            exact List.eq_nil_of_length_eq_zero this
          subst hw0
          have hpu : pre = u := by simpa using hw1
          rw [htake, hpu, List.drop_length] at h
          rw [hparse] at h
          exact absurd h (by simp)
      · have hsl : (nm.take (nm.length - ext.length)).length ≤ pre.length := by
          rw [List.length_take]
          omega
        rw [List.drop_eq_nil_of_le hsl, hparse] at h
        exact absurd h (by simp)
    · rw [if_neg hs] at h
      exact absurd h (by simp)
  · rw [if_neg hp] at h
    exact absurd h (by simp)

lemma timeFromName_concat (parse : List Char → Option Int) (pre ts ext : List Char) :
    timeFromName parse (pre ++ ts ++ ext) pre ext = parse ts := by
  unfold timeFromName
  rw [if_pos (List.isPrefixOf_iff_prefix.mpr ⟨ts ++ ext, by rw [List.append_assoc]⟩),
    if_pos (List.isSuffixOf_iff_suffix.mpr (List.suffix_append _ _))]
  congr 1
  have hlen : (pre ++ ts ++ ext).length - ext.length = (pre ++ ts).length := by
    simp only [List.length_append]
    omega
  rw [hlen, List.take_left, List.drop_left]

/-- **C3, amended**: in timestamp mode the scan classifies both
`<prefix><timestamp><ext>` and `<prefix><timestamp><ext>.gz`, and —
since `time.Parse` rejects the empty string — nothing else: every
classified name decomposes as one of those two forms.  In ordinal mode
it classifies exactly the non-directory entries whose name starts with
the log's base name and whose final dot-suffix parses as an integer: so
the uncompressed `<name><ext>.<N>` is classified, no name carrying the
compressed suffix ever is (compressed ordinal backups are ignored), and
names that merely extend the base name before a trailing integer are
classified too.  Subdirectories are always ignored. -/
theorem C3_classification_amended :
    (∀ (cfg : MillCfg) (ts : List Char) (t mt : Int), cfg.tsMode = true →
        cfg.parse ts = some t →
        classify cfg ⟨(prefixAndExt cfg.base true).1 ++ ts ++ (prefixAndExt cfg.base true).2,
            false, mt⟩ = some t ∧
          (classify cfg ⟨(prefixAndExt cfg.base true).1 ++ ts ++
              ((prefixAndExt cfg.base true).2 ++ compressSuffix), false, mt⟩).isSome = true) ∧
      (∀ (cfg : MillCfg) (ds : List Char) (mt : Int), cfg.tsMode = false →
        ds ≠ [] → ds.all Char.isDigit = true →
        classify cfg ⟨cfg.base ++ '.' :: ds, false, mt⟩ = some mt) ∧
      (∀ (cfg : MillCfg) (nm : List Char) (mt : Int), cfg.tsMode = false →
        compressSuffix.isSuffixOf nm = true →
        classify cfg ⟨nm, false, mt⟩ = none) ∧
      (∀ (cfg : MillCfg) (e : DirEntry), e.isDir = true → classify cfg e = none) ∧
      (∀ (cfg : MillCfg) (nm : List Char) (mt t : Int), cfg.tsMode = true →
        cfg.parse [] = none →
        classify cfg ⟨nm, false, mt⟩ = some t →
        ∃ ts, cfg.parse ts = some t ∧
          (nm = (prefixAndExt cfg.base true).1 ++ ts ++ (prefixAndExt cfg.base true).2 ∨
            nm = (prefixAndExt cfg.base true).1 ++ ts ++
              ((prefixAndExt cfg.base true).2 ++ compressSuffix))) ∧
      (∀ (cfg : MillCfg) (nm : List Char) (mt : Int), cfg.tsMode = false →
        (classify cfg ⟨nm, false, mt⟩ = some mt ↔
          cfg.base.isPrefixOf nm = true ∧
            (atoi (trimDot (takeExt nm))).isSome = true)) := by
  refine ⟨fun cfg ts t mt ht hp => ⟨?_, ?_⟩, fun cfg ds mt ht h1 h2 => ?_,
    fun cfg nm mt ht h => ?_, fun cfg e h => by simp [classify, h],
    fun cfg nm mt t ht hparse h => ?_, fun cfg nm mt ht => ?_⟩
  · simp only [classify, ht, if_true, if_false, Bool.false_eq_true]
    rw [timeFromName_concat cfg.parse _ ts _, hp]
  · simp only [classify, ht, if_true, if_false, Bool.false_eq_true]
    cases h1 : timeFromName cfg.parse
        ((prefixAndExt cfg.base true).1 ++ ts ++ ((prefixAndExt cfg.base true).2 ++ compressSuffix))
        (prefixAndExt cfg.base true).1 (prefixAndExt cfg.base true).2 with
    | some t' => simp [h1]
    | none =>
      rw [timeFromName_concat cfg.parse (prefixAndExt cfg.base true).1 ts
        ((prefixAndExt cfg.base true).2 ++ compressSuffix), hp]
      rfl
  · simp only [classify, ht, if_false, Bool.false_eq_true, prefixAndExt]
    rw [orderFromName_append_digits cfg.base ds h1 h2]
    unfold digitsToNat
    rw [if_pos ⟨h1, h2⟩]
    rfl
  · simp only [classify, ht, if_false, Bool.false_eq_true, prefixAndExt]
    rw [orderFromName_gz_none nm cfg.base h]
  · simp only [classify, ht, if_true, if_false, Bool.false_eq_true] at h
    cases h1 : timeFromName cfg.parse nm (prefixAndExt cfg.base true).1
        (prefixAndExt cfg.base true).2 with
    | some t1 =>
      rw [h1] at h
      have ht1 : t1 = t := Option.some_injective _ h
      obtain ⟨ts, hts, hpt⟩ :=
        timeFromName_decomp cfg.parse nm (prefixAndExt cfg.base true).1
          (prefixAndExt cfg.base true).2 hparse t1 h1
      exact ⟨ts, ht1 ▸ hpt, Or.inl hts⟩
    | none =>
      rw [h1] at h
      cases h2 : timeFromName cfg.parse nm (prefixAndExt cfg.base true).1
          ((prefixAndExt cfg.base true).2 ++ compressSuffix) with
      | some t2 =>
        rw [h2] at h
        have ht2 : t2 = t := Option.some_injective _ h
        obtain ⟨ts, hts, hpt⟩ :=
          timeFromName_decomp cfg.parse nm (prefixAndExt cfg.base true).1
            ((prefixAndExt cfg.base true).2 ++ compressSuffix) hparse t2 h2
        exact ⟨ts, ht2 ▸ hpt, Or.inr hts⟩
      | none =>
        rw [h2] at h
        exact absurd h (by simp)
  · simp only [classify, ht, if_false, Bool.false_eq_true, prefixAndExt]
    by_cases hp : cfg.base.isPrefixOf nm
    · rw [show orderFromName nm cfg.base [] =
          atoi (trimDot (takeExt nm)) from by
        unfold orderFromName
        rw [if_pos hp, if_pos (List.isSuffixOf_iff_suffix.mpr List.nil_suffix)]
        simp]
      cases ha : atoi (trimDot (takeExt nm)) with
      | some k => simp [hp, ha]
      | none => simp [hp, ha]
    · rw [show orderFromName nm cfg.base [] = none from by
        unfold orderFromName
        rw [if_neg hp]]
      simp [hp]

/-- A concrete timestamp-mode configuration whose `time.Parse` accepts
exactly the string `2024`. -/
def cfgTsEx : MillCfg :=
  ⟨"foobar.log".toList, true,
    fun s => if s = "2024".toList then some 42 else none, 0, 0, true⟩

theorem C3_classification_amended_witness :
    classify cfgTsEx ⟨(prefixAndExt cfgTsEx.base true).1 ++ "2024".toList ++
        (prefixAndExt cfgTsEx.base true).2, false, 5⟩ = some 42 ∧
      (classify cfgTsEx ⟨(prefixAndExt cfgTsEx.base true).1 ++ "2024".toList ++
          ((prefixAndExt cfgTsEx.base true).2 ++ compressSuffix), false, 5⟩).isSome = true ∧
      classify cfgOrdEx ⟨cfgOrdEx.base ++ '.' :: ['1'], false, 11⟩ = some 11 ∧
      classify cfgOrdEx ⟨"foobar.log.1.gz".toList, false, 11⟩ = none ∧
      classify cfgOrdEx ⟨"somedir".toList, true, 0⟩ = none ∧
      (∃ ts, cfgTsEx.parse ts = some 42 ∧
        ("foobar-2024.log".toList = (prefixAndExt cfgTsEx.base true).1 ++ ts ++
            (prefixAndExt cfgTsEx.base true).2 ∨
          "foobar-2024.log".toList = (prefixAndExt cfgTsEx.base true).1 ++ ts ++
            ((prefixAndExt cfgTsEx.base true).2 ++ compressSuffix))) ∧
      classify cfgOrdEx ⟨"foobar.logX.7".toList, false, 9⟩ = some 9 :=
  ⟨(C3_classification_amended.1 cfgTsEx "2024".toList 42 5 rfl (by decide)).1,
   (C3_classification_amended.1 cfgTsEx "2024".toList 42 5 rfl (by decide)).2,
   C3_classification_amended.2.1 cfgOrdEx ['1'] 11 rfl (by decide) (by decide),
   C3_classification_amended.2.2.1 cfgOrdEx "foobar.log.1.gz".toList 11 rfl (by decide),
   C3_classification_amended.2.2.2.1 cfgOrdEx ⟨"somedir".toList, true, 0⟩ rfl,
   C3_classification_amended.2.2.2.2.1 cfgTsEx "foobar-2024.log".toList 5 42 rfl
     (by decide) (by decide),
   (C3_classification_amended.2.2.2.2.2 cfgOrdEx "foobar.logX.7".toList 9 rfl).mpr
     ⟨by decide, by decide⟩⟩

/-! ### Theorems: ordinal backup naming -/

lemma mem_oldLogFiles {cfg : MillCfg} {entries : List DirEntry} {f : LogInfo} :
    f ∈ (oldLogFiles cfg entries).1 ↔
      ∃ e ∈ entries, classify cfg e = some f.timestamp ∧ f.name = e.name := by
  unfold oldLogFiles
  rw [List.Perm.mem_iff (List.perm_insertionSort byBirth _), List.mem_filterMap]
  constructor
  · rintro ⟨e, he, hmap⟩
    rcases Option.map_eq_some'.mp hmap with ⟨t, hc, hval⟩
    exact ⟨e, he, by rw [hc, ← hval], by rw [← hval]⟩
  · rintro ⟨e, he, hc, hn⟩
    refine ⟨e, he, ?_⟩
    rw [hc, Option.map_some']
    cases f
    simp_all

lemma classify_ordinal_order {cfg : MillCfg} {e : DirEntry} {t : Int}
    (ht : cfg.tsMode = false) (h : classify cfg e = some t) :
    t = e.modTime ∧ ∃ k, orderFromName e.name cfg.base [] = some k := by
  by_cases hd : e.isDir = true
  · simp [classify, hd] at h
  · rw [Bool.not_eq_true] at hd
    simp only [classify, hd, ht, if_false, Bool.false_eq_true, prefixAndExt] at h
    cases ho : orderFromName e.name cfg.base [] with
    | some k =>
      rw [ho] at h
      exact ⟨(Option.some_injective _ h).symm, k, rfl⟩
    | none => rw [ho] at h; exact absurd h (by simp)

lemma orderStep_ge (pre ext : List Char) (m : Int) (f : LogInfo) :
    m ≤ orderStep pre ext m f := by
  unfold orderStep
  split
  · split
    · split <;> omega
    · exact le_refl m
  · exact le_refl m

lemma foldl_orderStep_ge (pre ext : List Char) :
    ∀ (l : List LogInfo) (m : Int), m ≤ l.foldl (orderStep pre ext) m := by
  intro l
  induction l with
  | nil => exact fun m => le_refl m
  | cons g gs ih =>
    intro m
    exact le_trans (orderStep_ge pre ext m g) (ih (orderStep pre ext m g))

lemma foldl_orderStep_bound (pre ext : List Char) :
    ∀ (l : List LogInfo) (m : Int) (f : LogInfo), f ∈ l →
      compressSuffix.isSuffixOf f.name = false →
      ∀ k, orderFromName f.name pre ext = some k → k ≤ l.foldl (orderStep pre ext) m := by
  intro l
  induction l with
  | nil => intro m f hf; exact absurd hf (List.not_mem_nil f)
  | cons g gs ih =>
    intro m f hf hgz k hk
    rcases List.mem_cons.mp hf with rfl | hf'
    · have hstep : k ≤ orderStep pre ext m f := by
        unfold orderStep
        rw [hgz, Bool.not_false, if_pos rfl, hk]
        show k ≤ if m < k then k else m
        split <;> omega
      exact le_trans hstep (foldl_orderStep_ge pre ext gs _)
    · exact ih _ f hf' hgz k hk

lemma foldl_orderStep_attained (pre ext : List Char) :
    ∀ (l : List LogInfo) (m : Int),
      l.foldl (orderStep pre ext) m = m ∨
        ∃ f ∈ l, compressSuffix.isSuffixOf f.name = false ∧
          orderFromName f.name pre ext = some (l.foldl (orderStep pre ext) m) := by
  intro l
  induction l with
  | nil => intro m; exact Or.inl rfl
  | cons g gs ih =>
    intro m
    have hfold : (g :: gs).foldl (orderStep pre ext) m = gs.foldl (orderStep pre ext) (orderStep pre ext m g) :=
      rfl
    rcases ih (orderStep pre ext m g) with h | ⟨f, hf, hgz, ho⟩
    · rw [hfold, h]
      by_cases hgz : compressSuffix.isSuffixOf g.name = true
      · left; unfold orderStep; rw [hgz]; rfl
      · rw [Bool.not_eq_true] at hgz
        cases hor : orderFromName g.name pre ext with
        | none => left; unfold orderStep; rw [hgz, Bool.not_false, if_pos rfl, hor]
        | some o =>
          by_cases hlt : m < o
          · refine Or.inr ⟨g, List.mem_cons_self g gs, hgz, ?_⟩
            rw [hor]
            congr 1
            unfold orderStep
            rw [hgz, Bool.not_false, if_pos rfl, hor]
            show o = if m < o then o else m
            rw [if_pos hlt]
          · left
            unfold orderStep
            rw [hgz, Bool.not_false, if_pos rfl, hor]
            show (if m < o then o else m) = m
            rw [if_neg hlt]
    · exact Or.inr ⟨f, List.mem_cons_of_mem g hf, hgz, by rw [hfold]; exact ho⟩

lemma maxBackupOrder_eq (cfg : MillCfg) (entries : List DirEntry) (ht : cfg.tsMode = false) :
    maxBackupOrder cfg entries =
      ((oldLogFiles cfg entries).1).foldl (orderStep cfg.base []) 0 := by
  unfold maxBackupOrder
  rw [ht]
  rfl

/-- **C7**: in ordinal mode the backup name chosen at rotation is
`<prefix><ext>.<N+1>` where `N` is the running maximum (starting from
`0`) of the ordinals found among the existing non-compressed classified
backups, and this name differs from the name of every existing
classified backup (all of which are uncompressed in ordinal mode). -/
theorem C7_ordinal_backup_name (cfg : MillCfg) (entries : List DirEntry)
    (ht : cfg.tsMode = false) :
    backupNameOrdinal cfg entries =
        cfg.base ++ '.' :: natDigits (maxBackupOrder cfg entries + 1).toNat ∧
      0 ≤ maxBackupOrder cfg entries ∧
      (∀ f ∈ (oldLogFiles cfg entries).1, ∀ k,
          orderFromName f.name cfg.base [] = some k → k ≤ maxBackupOrder cfg entries) ∧
      (maxBackupOrder cfg entries = 0 ∨
        ∃ f ∈ (oldLogFiles cfg entries).1,
          orderFromName f.name cfg.base [] = some (maxBackupOrder cfg entries)) ∧
      (∀ f ∈ (oldLogFiles cfg entries).1, f.name ≠ backupNameOrdinal cfg entries) := by
  have h0 : (0 : Int) ≤ maxBackupOrder cfg entries := by
    rw [maxBackupOrder_eq cfg entries ht]
    exact foldl_orderStep_ge cfg.base [] _ 0
  have hname : backupNameOrdinal cfg entries =
      cfg.base ++ '.' :: natDigits (maxBackupOrder cfg entries + 1).toNat := by
    unfold backupNameOrdinal
    rw [ht]
    show cfg.base ++ [] ++ '.' :: intDigits (maxBackupOrder cfg entries + 1) = _
    rw [List.append_nil]
    unfold intDigits
    rw [if_neg (by omega)]
  have hbound : ∀ f ∈ (oldLogFiles cfg entries).1, ∀ k,
      orderFromName f.name cfg.base [] = some k → k ≤ maxBackupOrder cfg entries := by
    intro f hf k hk
    have hgz : compressSuffix.isSuffixOf f.name = false := by
      cases hgz : compressSuffix.isSuffixOf f.name with
      | false => rfl
      | true => rw [orderFromName_gz_none f.name cfg.base hgz] at hk; exact absurd hk (by simp)
    rw [maxBackupOrder_eq cfg entries ht]
    have := foldl_orderStep_bound cfg.base [] ((oldLogFiles cfg entries).1) 0 f hf hgz k hk
    exact this
  refine ⟨hname, h0, hbound, ?_, ?_⟩
  · rw [maxBackupOrder_eq cfg entries ht]
    rcases foldl_orderStep_attained cfg.base [] ((oldLogFiles cfg entries).1) 0 with h | ⟨f, hf, _, ho⟩
    · exact Or.inl h
    · exact Or.inr ⟨f, hf, ho⟩
  · intro f hf heq
    rcases mem_oldLogFiles.mp hf with ⟨e, _, hc, hn⟩
    rcases (classify_ordinal_order ht hc).2 with ⟨k, hk⟩
    rw [← hn] at hk
    have hk' : k ≤ maxBackupOrder cfg entries := hbound f hf k hk
    rw [heq, hname] at hk
    rw [orderFromName_natDigits cfg.base ((maxBackupOrder cfg entries + 1).toNat)] at hk
    have : k = ((maxBackupOrder cfg entries + 1).toNat : Int) := Option.some_injective _ hk.symm
    omega

theorem C7_ordinal_backup_name_witness :
    backupNameOrdinal cfgOrdEx entriesEx =
        cfgOrdEx.base ++ '.' :: natDigits (maxBackupOrder cfgOrdEx entriesEx + 1).toNat ∧
      (⟨100, "foobar.log.1".toList⟩ : LogInfo).name ≠ backupNameOrdinal cfgOrdEx entriesEx :=
  ⟨(C7_ordinal_backup_name cfgOrdEx entriesEx rfl).1,
   (C7_ordinal_backup_name cfgOrdEx entriesEx rfl).2.2.2.2
     ⟨100, "foobar.log.1".toList⟩ (by decide)⟩

/-! ### Theorems: the retention count law -/

/-- Number of logical backup units in a list of backups: compressed and
uncompressed forms of the same backup (names equal after trimming the
compressed suffix) count once. -/
def unitCount (files : List LogInfo) : Nat :=
  ((files.map (fun f => trimSuffix f.name compressSuffix)).dedup).length

lemma nodup_subset_length {α : Type} [DecidableEq α] {l1 l2 : List α}
    (h1 : l1.Nodup) (hs : l1 ⊆ l2) (h2 : l2.Nodup) : l1.length ≤ l2.length := by
  have a1 : l1.toFinset.card = l1.length := List.toFinset_card_of_nodup h1
  have a2 : l2.toFinset.card = l2.length := List.toFinset_card_of_nodup h2
  have hsub : l1.toFinset ⊆ l2.toFinset := by
    intro x hx
    simp only [List.mem_toFinset] at hx ⊢
    exact hs hx
  have := Finset.card_le_card hsub
  omega

/-- The successor set of registered names at one step of the
count-enforcement loop. -/
def insertName (preserved : List (List Char)) (f : LogInfo) : List (List Char) :=
  if trimSuffix f.name compressSuffix ∈ preserved then preserved
  else preserved ++ [trimSuffix f.name compressSuffix]

lemma enforceCount_cons (maxB : Int) (preserved : List (List Char)) (f : LogInfo)
    (fs : List LogInfo) :
    enforceCount maxB preserved (f :: fs) =
      if maxB < ((insertName preserved f).length : Int)
      then ((enforceCount maxB (insertName preserved f) fs).1,
        f :: (enforceCount maxB (insertName preserved f) fs).2)
      else (f :: (enforceCount maxB (insertName preserved f) fs).1,
        (enforceCount maxB (insertName preserved f) fs).2) := rfl

lemma insertName_length_ge (preserved : List (List Char)) (f : LogInfo) :
    preserved.length ≤ (insertName preserved f).length := by
  unfold insertName
  split
  · exact le_refl _
  · simp

lemma insertName_isPrefix (preserved : List (List Char)) (f : LogInfo) :
    preserved <+: insertName preserved f := by
  unfold insertName
  split
  · exact List.prefix_refl _
  · exact List.prefix_append _ _

lemma insertName_nodup {preserved : List (List Char)} (f : LogInfo)
    (hnd : preserved.Nodup) : (insertName preserved f).Nodup := by
  unfold insertName
  split
  · exact hnd
  · rename_i hmem
    simpa [List.nodup_append, hnd] using hmem

lemma insertName_mem (preserved : List (List Char)) (f : LogInfo) :
    trimSuffix f.name compressSuffix ∈ insertName preserved f := by
  unfold insertName
  split
  · assumption
  · simp

lemma enforceCount_subs (maxB : Int) :
    ∀ (fs : List LogInfo) (preserved : List (List Char)),
      (enforceCount maxB preserved fs).1 ⊆ fs ∧ (enforceCount maxB preserved fs).2 ⊆ fs := by
  intro fs
  induction fs with
  | nil => intro preserved; exact ⟨List.Subset.refl _, List.Subset.refl _⟩
  | cons f fs ih =>
    intro preserved
    rw [enforceCount_cons]
    by_cases hover : maxB < ((insertName preserved f).length : Int)
    · rw [if_pos hover]
      exact ⟨fun x hx => List.mem_cons_of_mem f ((ih _).1 hx),
        fun x hx => by
          rcases List.mem_cons.mp hx with rfl | hx'
          · exact List.mem_cons_self _ _
          · exact List.mem_cons_of_mem f ((ih _).2 hx')⟩
    · rw [if_neg hover]
      exact ⟨fun x hx => by
          rcases List.mem_cons.mp hx with rfl | hx'
          · exact List.mem_cons_self _ _
          · exact List.mem_cons_of_mem f ((ih _).1 hx'),
        fun x hx => List.mem_cons_of_mem f ((ih _).2 hx)⟩

lemma enforceCount_stop (maxB : Int) :
    ∀ (fs : List LogInfo) (preserved : List (List Char)),
      maxB < (preserved.length : Int) → (enforceCount maxB preserved fs).1 = [] := by
  intro fs
  induction fs with
  | nil => intro preserved _; rfl
  | cons f fs ih =>
    intro preserved h
    rw [enforceCount_cons]
    have hgrow := insertName_length_ge preserved f
    rw [if_pos (by omega)]
    exact ih _ (by omega)

lemma enforceCount_units (maxB : Int) :
    ∀ (fs : List LogInfo) (preserved : List (List Char)), preserved.Nodup →
      ∃ P : List (List Char), preserved <+: P ∧ P.Nodup ∧
        (∀ f ∈ (enforceCount maxB preserved fs).1,
          trimSuffix f.name compressSuffix ∈ P) ∧
        ((P.length : Int) ≤ maxB ∨ (enforceCount maxB preserved fs).1 = []) := by
  intro fs
  induction fs with
  | nil =>
    intro preserved hnd
    exact ⟨preserved, List.prefix_refl _, hnd, fun f hf => absurd hf (List.not_mem_nil f),
      Or.inr rfl⟩
  | cons f fs ih =>
    intro preserved hnd
    rw [enforceCount_cons]
    by_cases hover : maxB < ((insertName preserved f).length : Int)
    · rw [if_pos hover]
      refine ⟨insertName preserved f, insertName_isPrefix preserved f,
        insertName_nodup f hnd, ?_, ?_⟩
      · rw [enforceCount_stop maxB fs _ hover]
        exact fun g hg => absurd hg (List.not_mem_nil g)
      · exact Or.inr (enforceCount_stop maxB fs _ hover)
    · rw [if_neg hover]
      rcases ih (insertName preserved f) (insertName_nodup f hnd) with
        ⟨P, hPpre, hPnd, hPmem, hPdisj⟩
      by_cases hrest : (enforceCount maxB (insertName preserved f) fs).1 = []
      · refine ⟨insertName preserved f, insertName_isPrefix preserved f,
          insertName_nodup f hnd, ?_, Or.inl (by omega)⟩
        intro g hg
        rcases List.mem_cons.mp hg with rfl | hg'
        · exact insertName_mem preserved g
        · rw [hrest] at hg'
          exact absurd hg' (List.not_mem_nil g)
      · rcases hPdisj with hPlen | hPnil
        · refine ⟨P, (insertName_isPrefix preserved f).trans hPpre, hPnd, ?_, Or.inl hPlen⟩
          intro g hg
          rcases List.mem_cons.mp hg with rfl | hg'
          · exact hPpre.subset (insertName_mem preserved g)
          · exact hPmem g hg'
        · exact absurd hPnil hrest

lemma enforceCount_pairs (maxB : Int) :
    ∀ (fs : List LogInfo) (preserved : List (List Char)), List.Sorted byBirth fs →
      ∀ f ∈ (enforceCount maxB preserved fs).2,
        ∀ g ∈ (enforceCount maxB preserved fs).1, f.timestamp ≤ g.timestamp := by
  intro fs
  induction fs with
  | nil => intro preserved _ f hf; exact absurd hf (List.not_mem_nil f)
  | cons a fs ih =>
    intro preserved hs f hf g hg
    rw [List.sorted_cons] at hs
    rw [enforceCount_cons] at hf hg
    by_cases hover : maxB < ((insertName preserved a).length : Int)
    · rw [if_pos hover] at hg
      rw [enforceCount_stop maxB fs _ hover] at hg
      exact absurd hg (List.not_mem_nil g)
    · rw [if_neg hover] at hf hg
      rcases List.mem_cons.mp hg with rfl | hg'
      · exact hs.1 f ((enforceCount_subs maxB fs _).2 hf)
      · exact ih _ hs.2 f hf g hg'

lemma classify_some_not_dir {cfg : MillCfg} {e : DirEntry} {t : Int}
    (h : classify cfg e = some t) : e.isDir = false := by
  by_cases hd : e.isDir = true
  · simp [classify, hd] at h
  · exact Bool.not_eq_true e.isDir ▸ hd

lemma sorted_oldLogFiles (cfg : MillCfg) (entries : List DirEntry) :
    List.Sorted byBirth (oldLogFiles cfg entries).1 := by
  unfold oldLogFiles
  exact List.sorted_insertionSort byBirth _

lemma unitCount_le_of_mem {files : List LogInfo} {P : List (List Char)} (hPnd : P.Nodup)
    (hsub : ∀ f ∈ files, trimSuffix f.name compressSuffix ∈ P) :
    unitCount files ≤ P.length := by
  unfold unitCount
  apply nodup_subset_length (List.nodup_dedup _) _ hPnd
  intro x hx
  rw [List.mem_dedup] at hx
  rcases List.mem_map.mp hx with ⟨f, hf, rfl⟩
  exact hsub f hf

lemma unitCount_le_length (files : List LogInfo) : unitCount files ≤ files.length := by
  unfold unitCount
  have h1 := (List.dedup_sublist (files.map (fun f => trimSuffix f.name compressSuffix))).length_le
  rw [List.length_map] at h1
  exact h1

lemma removed_classified {cfg : MillCfg} {entries : List DirEntry} {f : LogInfo}
    (hf : f ∈ (oldLogFiles cfg entries).1) :
    ∃ e ∈ entries, e.isDir = false ∧ classify cfg e = some f.timestamp ∧
      f.name = e.name := by
  rcases mem_oldLogFiles.mp hf with ⟨e, he, hc, hn⟩
  exact ⟨e, he, classify_some_not_dir hc, hc, hn⟩

/-- **C2**: once a retention pass completes under `MaxBackups > 0`, the
number of logical backup units among the surviving classified backups
is at most `MaxBackups`, every removed backup is at least as old as
every surviving one (the newest are retained), and everything removed
is a non-directory entry that classified as a backup of this log —
unclassified files and directories are never removed. -/
theorem C2_retention_count_law (cfg : MillCfg) (entries : List DirEntry) (now : Int)
    (h : 0 < cfg.maxBackups) :
    ((unitCount (millRunOnce cfg entries now).surviving : Int) ≤ cfg.maxBackups) ∧
      (∀ f ∈ (millRunOnce cfg entries now).removed,
        ∀ g ∈ (millRunOnce cfg entries now).surviving, f.timestamp ≤ g.timestamp) ∧
      (∀ f ∈ (millRunOnce cfg entries now).removed,
        ∃ e ∈ entries, e.isDir = false ∧ classify cfg e = some f.timestamp ∧
          f.name = e.name) := by
  have hne : ¬(cfg.maxBackups = 0 ∧ cfg.maxAge = 0 ∧ cfg.compress = false) :=
    fun hc => absurd hc.1 (by omega)
  have hsor := sorted_oldLogFiles cfg entries
  unfold millRunOnce
  rw [if_neg hne]
  dsimp only
  by_cases hcb : 0 < cfg.maxBackups ∧
      cfg.maxBackups < (((oldLogFiles cfg entries).1.length : Int))
  · rw [if_pos hcb]
    dsimp only
    rcases enforceCount_units cfg.maxBackups (oldLogFiles cfg entries).1 [] List.nodup_nil
      with ⟨P, _, hPnd, hPmem, hPdisj⟩
    have hpairs := enforceCount_pairs cfg.maxBackups (oldLogFiles cfg entries).1 [] hsor
    have hsubs := enforceCount_subs cfg.maxBackups (oldLogFiles cfg entries).1 []
    by_cases hma : 0 < cfg.maxAge
    · rw [if_pos hma]
      dsimp only
      refine ⟨?_, ?_, ?_⟩
      · rcases hPdisj with hPlen | hPnil
        · have := @unitCount_le_of_mem
            ((enforceCount cfg.maxBackups [] (oldLogFiles cfg entries).1).1.filter
              (fun f => !(decide (f.timestamp < now - 24 * nanosPerHour * cfg.maxAge))))
            P hPnd (fun f hf => hPmem f (List.mem_of_mem_filter hf))
          omega
        · rw [hPnil]
          simp only [List.filter_nil]
          have : unitCount [] = 0 := rfl
          omega
      · intro f hf g hg
        rcases List.mem_append.mp hf with hf1 | hf2
        · exact hpairs f hf1 g (List.mem_of_mem_filter hg)
        · have hflt := List.of_mem_filter hf2
          have hglt := List.of_mem_filter hg
          simp only [decide_eq_true_eq] at hflt
          simp only [Bool.not_eq_true', decide_eq_false_iff_not] at hglt
          omega
      · intro f hf
        rcases List.mem_append.mp hf with hf1 | hf2
        · exact removed_classified (hsubs.2 hf1)
        · exact removed_classified (hsubs.1 (List.mem_of_mem_filter hf2))
    · rw [if_neg hma]
      dsimp only
      refine ⟨?_, ?_, ?_⟩
      · rcases hPdisj with hPlen | hPnil
        · have := unitCount_le_of_mem hPnd hPmem
          omega
        · rw [hPnil]
          have : unitCount [] = 0 := rfl
          omega
      · intro f hf g hg
        rcases List.mem_append.mp hf with hf1 | hf2
        · exact hpairs f hf1 g hg
        · exact absurd hf2 (List.not_mem_nil f)
      · intro f hf
        rcases List.mem_append.mp hf with hf1 | hf2
        · exact removed_classified (hsubs.2 hf1)
        · exact absurd hf2 (List.not_mem_nil f)
  · rw [if_neg hcb]
    dsimp only
    have hlen : (((oldLogFiles cfg entries).1.length : Int)) ≤ cfg.maxBackups := by
      rcases not_and_or.mp hcb with h1 | h2
      · exact absurd h h1
      · omega
    by_cases hma : 0 < cfg.maxAge
    · rw [if_pos hma]
      dsimp only
      refine ⟨?_, ?_, ?_⟩
      · have h1 := unitCount_le_length ((oldLogFiles cfg entries).1.filter
          (fun f => !(decide (f.timestamp < now - 24 * nanosPerHour * cfg.maxAge))))
        have h2 := List.length_filter_le
          (fun f => !(decide (f.timestamp < now - 24 * nanosPerHour * cfg.maxAge)))
          (oldLogFiles cfg entries).1
        omega
      · intro f hf g hg
        rcases List.mem_append.mp hf with hf1 | hf2
        · exact absurd hf1 (List.not_mem_nil f)
        · have hflt := List.of_mem_filter hf2
          have hglt := List.of_mem_filter hg
          simp only [decide_eq_true_eq] at hflt
          simp only [Bool.not_eq_true', decide_eq_false_iff_not] at hglt
          omega
      · intro f hf
        rcases List.mem_append.mp hf with hf1 | hf2
        · exact absurd hf1 (List.not_mem_nil f)
        · exact removed_classified (List.mem_of_mem_filter hf2)
    · rw [if_neg hma]
      dsimp only
      refine ⟨?_, ?_, ?_⟩
      · have h1 := unitCount_le_length (oldLogFiles cfg entries).1
        omega
      · intro f hf g hg
        rcases List.mem_append.mp hf with hf1 | hf2
        · exact absurd hf1 (List.not_mem_nil f)
        · exact absurd hf2 (List.not_mem_nil f)
      · intro f hf
        rcases List.mem_append.mp hf with hf1 | hf2
        · exact absurd hf1 (List.not_mem_nil f)
        · exact absurd hf2 (List.not_mem_nil f)

theorem C2_retention_count_law_witness :
    ((unitCount (millRunOnce cfgOrdEx entriesEx 0).surviving : Int) ≤ cfgOrdEx.maxBackups) ∧
      (⟨100, "foobar.log.1".toList⟩ : LogInfo).timestamp ≤
        (⟨200, "foobar.log.2".toList⟩ : LogInfo).timestamp ∧
      (∃ e ∈ entriesEx, e.isDir = false ∧
        classify cfgOrdEx e = some (⟨100, "foobar.log.1".toList⟩ : LogInfo).timestamp ∧
        (⟨100, "foobar.log.1".toList⟩ : LogInfo).name = e.name) :=
  ⟨(C2_retention_count_law cfgOrdEx entriesEx 0 (by decide)).1,
   (C2_retention_count_law cfgOrdEx entriesEx 0 (by decide)).2.1
     ⟨100, "foobar.log.1".toList⟩ (by decide) ⟨200, "foobar.log.2".toList⟩ (by decide),
   (C2_retention_count_law cfgOrdEx entriesEx 0 (by decide)).2.2
     ⟨100, "foobar.log.1".toList⟩ (by decide)⟩

end Logrotate
